import Mathlib

/-!
Shallow embedding of `deduper.py` (rcook/pyfileutils): a file deduplicator
that groups files by size, then by partial content signature, then by full
content signature, and removes all but one member of each duplicate group
according to a retention strategy.

Modelling conventions:
* a path is its character string (`List Char`), matching Python 2 byte
  strings for the ASCII paths the tool manipulates;
* the filesystem is an association list from paths to file contents
  (`List Nat`, one entry per byte); `os.stat`, `open`/`read` and
  `os.unlink` fail exactly on paths absent from this list, modelling
  per-file I/O errors;
* a raised Python exception is `Except.error`; error strings are canonical
  (`"No such file or directory"` for any I/O failure, `"Unreachable"` and
  `"Diagnostics failed"` for the two explicit `RuntimeError`s,
  `"IndexError"` for out-of-range indexing);
* Python 2 dicts are insertion-ordered association lists; the claims proved
  below do not depend on CPython's actual hash iteration order;
* `hashlib.sha1` is an abstract digest parameter `H` applied to the
  concatenation of the blocks fed to `update`; the hexdigest is its
  `List Char` output.
-/

set_option maxRecDepth 40000

abbrev FPath := List Char

abbrev Content := List Nat

abbrev FS := List (FPath × Content)

/-- Lookup of a path in the modelled filesystem. -/
def fsLookup : FS → FPath → Option Content
  | [], _ => none
  | e :: rest, p => if e.1 = p then some e.2 else fsLookup rest p

/-- Model of `os.stat(path).st_size`: fails when the file is absent. -/
def statSize (fs : FS) (p : FPath) : Except String Nat :=
  match fsLookup fs p with
  | some c => .ok c.length
  | none => .error "No such file or directory"

/-- Model of `open(path, "rb").read()`: fails when the file is absent. -/
def readFile (fs : FS) (p : FPath) : Except String Content :=
  match fsLookup fs p with
  | some c => .ok c
  | none => .error "No such file or directory"

/-- Model of `os.unlink(path)`: removes the entry from the filesystem. -/
def fsErase (fs : FS) (p : FPath) : FS :=
  fs.filter (fun e => e.1 ≠ p)

/-- BLOCK_SIZE constant from the source (line 63). -/
def BLOCK_SIZE : Nat := 1024

/-- Python 2 `cmp` on byte strings: -1, 0 or 1, lexicographic by byte. -/
def cmpChars : List Char → List Char → Int
  | [], [] => 0
  | [], _ :: _ => -1
  | _ :: _, [] => 1
  | a :: as, b :: bs =>
    if a.toNat < b.toNat then -1
    else if b.toNat < a.toNat then 1
    else cmpChars as bs

/-- Characters of a path strictly after its last slash, i.e. the data of
`os.path.basename`; the remaining front part (with the last slash) is the
raw head used by `os.path.dirname`. -/
def pathSplit (p : FPath) : FPath × FPath :=
  let r := p.reverse
  ((r.dropWhile (fun c => c ≠ '/')).reverse, (r.takeWhile (fun c => c ≠ '/')).reverse)

/-- Model of `os.path.dirname` (posixpath semantics: the part before the
last slash, with trailing slashes stripped unless it is all slashes). -/
def dirname (p : FPath) : FPath :=
  let head := (pathSplit p).1
  if head ≠ [] ∧ head.any (fun c => c ≠ '/') then
    (head.reverse.dropWhile (fun c => c = '/')).reverse
  else head

/-- Model of `os.path.basename`. -/
def basename (p : FPath) : FPath :=
  (pathSplit p).2

/-- The "Copy of " marker tested by the keep-first strategy. -/
def copyMarker : List Char := "Copy of ".data

/-- Model of `KeepFirstInCopyAwareOrderStrategy.has_prefix`: reports whether
`file_name` starts with `pre` and returns the name with the marker
stripped when it does. -/
def has_prefix (pre : List Char) (file_name : List Char) : Bool × List Char :=
  if pre.isPrefixOf file_name then (true, file_name.drop pre.length)
  else (false, file_name)

/-- Model of `KeepFirstInCopyAwareOrderStrategy.copy_aware_path_compare`
(source lines 38-57).  `Except.error` models the `RuntimeError("Unreachable")`
raise. -/
def copy_aware_path_compare (p0 p1 : FPath) : Except String Int :=
  let d0 := dirname p0
  let d1 := dirname p1
  if d0 ≠ d1 then .ok (cmpChars p0 p1)
  else
    let n0 := basename p0
    let r0 := has_prefix copyMarker n0
    let n1 := basename p1
    let r1 := has_prefix copyMarker n1
    if r0.2 = r1.2 then
      if r0.1 then .ok 1
      else if r1.1 then .ok (-1)
      else .error "Unreachable"
    else .ok (cmpChars n0 n1)

/-- Stable insertion of an element into an already-sorted accumulator with a
fallible comparator: the new element is placed before the first element it
compares strictly below, hence after all elements it ties with. -/
def insertCmp (c : FPath → FPath → Except String Int) (x : FPath) :
    List FPath → Except String (List FPath)
  | [] => .ok [x]
  | y :: ys =>
    match c x y with
    | .error e => .error e
    | .ok r =>
      if r < 0 then .ok (x :: y :: ys)
      else
        match insertCmp c x ys with
        | .error e => .error e
        | .ok zs => .ok (y :: zs)

/-- Left fold of `insertCmp` over the input list. -/
def sortCmpAux (c : FPath → FPath → Except String Int) :
    List FPath → List FPath → Except String (List FPath)
  | acc, [] => .ok acc
  | acc, x :: xs =>
    match insertCmp c x acc with
    | .error e => .error e
    | .ok acc' => sortCmpAux c acc' xs

/-- Model of Python's stable `sorted(paths, cmp=...)`.  Stable insertion
sort agrees with CPython's stable sort whenever the comparator is
consistent on the compared elements. -/
def sortCmp (c : FPath → FPath → Except String Int) (l : List FPath) :
    Except String (List FPath) :=
  sortCmpAux c [] l

/-- Model of `DoNotRemoveDuplicatesStrategy.apply` (source lines 18-19):
keeps every path, removes none. -/
def DoNotRemoveDuplicatesStrategy.apply (paths : List FPath) :
    List FPath × List FPath :=
  (paths, [])

/-- Model of `KeepFirstInCopyAwareOrderStrategy.apply` (source lines 26-28):
sorts with the copy-aware comparator, keeps the first element,
removes the rest.  `sorted_paths[0]` on an empty group raises `IndexError`. -/
def KeepFirstInCopyAwareOrderStrategy.apply (paths : List FPath) :
    Except String (List FPath × List FPath) :=
  match sortCmp copy_aware_path_compare paths with
  | .error e => .error e
  | .ok [] => .error "IndexError"
  | .ok (x :: rest) => .ok ([x], rest)

/-- The closed set of retention strategies (`STRATEGIES`, source lines 69-72). -/
inductive Strategy where
  | nop
  | keepFirst
deriving DecidableEq

/-- Dispatch of `strategy.apply(paths)`. -/
def Strategy.apply : Strategy → List FPath → Except String (List FPath × List FPath)
  | .nop, paths => .ok (DoNotRemoveDuplicatesStrategy.apply paths)
  | .keepFirst, paths => KeepFirstInCopyAwareOrderStrategy.apply paths

/-- Appending a value to the bucket of key `k` in an insertion-ordered
association-list dictionary (`result[k].append(path)` after
`result[k] = []` when absent). -/
def addToBucket {κ : Type} [DecidableEq κ] :
    List (κ × List FPath) → κ → FPath → List (κ × List FPath)
  | [], k, p => [(k, [p])]
  | (k', ps) :: rest, k, p =>
    if k = k' then (k', ps ++ [p]) :: rest
    else (k', ps) :: addToBucket rest k p

/-- Model of `prune` (source lines 145-146): keep only buckets with at
least two members. -/
def prune {κ : Type} (d : List (κ × List FPath)) : List (κ × List FPath) :=
  d.filter (fun e => 1 < e.2.length)

/-- All paths of a dictionary's buckets, in iteration order. -/
def flatPaths {κ : Type} (d : List (κ × List FPath)) : List FPath :=
  (d.map Prod.snd).flatten

/-- The stat-and-bucket loop inside `scan` (source lines 196-203): on the
first failing metadata read the exception propagates and the whole scan
aborts. -/
def walkFold (fs : FS) : List FPath → List (Nat × List FPath) →
    Except String (List (Nat × List FPath))
  | [], m => .ok m
  | p :: ps, m =>
    match statSize fs p with
    | .error e => .error e
    | .ok sz => walkFold fs ps (addToBucket m sz p)

/-- Model of `scan` (source lines 193-205): `walk` is the sequence of file
paths produced by `os.walk` under the root directory. -/
def scan (walk : List FPath) (fs : FS) : Except String (List (Nat × List FPath)) :=
  match walkFold fs walk [] with
  | .error e => .error e
  | .ok m => .ok (prune m)

/-- Sequential block reads `f.read(BLOCK_SIZE)` repeated `count` times:
their concatenation, which is what the digest is fed. -/
def readBlocks (c : Content) : Nat → Content
  | 0 => []
  | k + 1 => c.take BLOCK_SIZE ++ readBlocks (c.drop BLOCK_SIZE) k

/-- Signature string `"{size}:{hexdigest}"` at the character level. -/
def sigFormat (n : Nat) (h : List Char) : List Char :=
  (Nat.repr n).data ++ ':' :: h

/-- Model of `compute_signature` (source lines 220-232), with the digest
`H` abstracting `hashlib.sha1(...).hexdigest()` applied to the
concatenation of the blocks passed to `update`.  Note the source's block
count for the full pass: `(size / BLOCK_SIZE) + 1` when
`size % BLOCK_SIZE > 0`, and `0` otherwise. -/
def compute_signature (H : Content → List Char) (fs : FS) (p : FPath)
    (isPartial : Bool) : Except String (List Char) :=
  match readFile fs p with
  | .error e => .error e
  | .ok content =>
    let file_size := content.length
    let block_count :=
      if isPartial then 1
      else if file_size % BLOCK_SIZE > 0 then file_size / BLOCK_SIZE + 1 else 0
    .ok (sigFormat file_size (H (readBlocks content block_count)))

/-- The signature-and-bucket loop inside `compute_signatures`
(source lines 210-216), iterating over all paths of the incoming groups. -/
def sigFold (H : Content → List Char) (fs : FS) (isPartial : Bool) :
    List FPath → List (List Char × List FPath) →
    Except String (List (List Char × List FPath))
  | [], m => .ok m
  | p :: ps, m =>
    match compute_signature H fs p isPartial with
    | .error e => .error e
    | .ok sig => sigFold H fs isPartial ps (addToBucket m sig p)

/-- Model of `compute_signatures` (source lines 207-218). -/
def compute_signatures {κ : Type} (H : Content → List Char) (fs : FS)
    (d : List (κ × List FPath)) (isPartial : Bool) :
    Except String (List (List Char × List FPath)) :=
  match sigFold H fs isPartial (flatPaths d) [] with
  | .error e => .error e
  | .ok m => .ok (prune m)

/-- Model of `compare_files` (source lines 115-121). -/
def compare_files (fs : FS) (p0 p1 : FPath) : Except String Bool :=
  match readFile fs p0 with
  | .error e => .error e
  | .ok d0 =>
    match readFile fs p1 with
    | .error e => .error e
    | .ok d1 => .ok (decide (d0 = d1))

/-- The duplicate-byte fold of `compute_wastage`: `os.stat(paths[0])` on an
empty bucket raises `IndexError`; a missing first member raises the I/O
error. -/
def wastageBytes (fs : FS) : List (List FPath) → Nat → Except String Nat
  | [], acc => .ok acc
  | g :: gs, acc =>
    match g with
    | [] => .error "IndexError"
    | p :: _ =>
      match statSize fs p with
      | .error e => .error e
      | .ok sz => wastageBytes fs gs (acc + sz * (g.length - 1))

/-- The verification loop of `compute_wastage` under `debug`: compares every
member of one group against the group's first member `p0`, accumulating
validity; a failing read aborts. -/
def wastageValidGroup (fs : FS) (p0 : FPath) : List FPath → Bool → Except String Bool
  | [], acc => .ok acc
  | p :: ps, acc =>
    match compare_files fs p0 p with
    | .error e => .error e
    | .ok r => wastageValidGroup fs p0 ps (acc && r)

/-- The outer verification loop of `compute_wastage` under `debug`. -/
def wastageValid (fs : FS) : List (List FPath) → Bool → Except String Bool
  | [], acc => .ok acc
  | g :: gs, acc =>
    match g with
    | [] => .error "IndexError"
    | p0 :: _ =>
      match wastageValidGroup fs p0 g acc with
      | .error e => .error e
      | .ok acc' => wastageValid fs gs acc'

/-- Model of `compute_wastage` (source lines 127-143).  The file count is
the sum of `len(paths) - 1`; the byte count multiplies each group's first
member's size by `len(paths) - 1`; under `debug` every member is
byte-compared with the first member and any mismatch raises
`RuntimeError("Diagnostics failed")` after the loop. -/
def compute_wastage {κ : Type} (fs : FS) (d : List (κ × List FPath))
    (dbg : Bool) : Except String (Nat × Nat) :=
  let duplicate_file_count := (d.map (fun e => e.2.length - 1)).sum
  match wastageBytes fs (d.map Prod.snd) 0 with
  | .error e => .error e
  | .ok duplicate_byte_count =>
    if dbg then
      match wastageValid fs (d.map Prod.snd) true with
      | .error e => .error e
      | .ok is_valid =>
        if is_valid then .ok (duplicate_file_count, duplicate_byte_count)
        else .error "Diagnostics failed"
    else .ok (duplicate_file_count, duplicate_byte_count)

/-- The inner removal loop of `find_duplicates` (source lines 182-186):
stat the file, accumulate freed bytes, and unlink unless in dry-run mode. -/
def removeFiles (dryRun : Bool) : List FPath → Nat → FS → Except String (Nat × FS)
  | [], bytes, fs => .ok (bytes, fs)
  | p :: ps, bytes, fs =>
    match statSize fs p with
    | .error e => .error e
    | .ok sz => removeFiles dryRun ps (bytes + sz) (if dryRun then fs else fsErase fs p)

/-- The per-group removal loop of `find_duplicates` (source lines 169-186):
apply the strategy, count the files to remove, and remove them. -/
def deletionLoop (strategy : Strategy) (dryRun : Bool) {κ : Type} :
    List (κ × List FPath) → Nat → Nat → FS → Except String (Nat × Nat × FS)
  | [], fc, bytes, fs => .ok (fc, bytes, fs)
  | (_, paths) :: gs, fc, bytes, fs =>
    match strategy.apply paths with
    | .error e => .error e
    | .ok (_, files_to_remove) =>
      match removeFiles dryRun files_to_remove bytes fs with
      | .error e => .error e
      | .ok (bytes', fs') =>
        deletionLoop strategy dryRun gs (fc + files_to_remove.length) bytes' fs'

/-- The aggregates that `find_duplicates` computes and logs: duplicate
files found, duplicate bytes found, files removed, bytes freed. -/
structure Report where
  duplicateFileCount : Nat
  duplicateByteCount : Nat
  filesRemoved : Nat
  bytesFreed : Nat
deriving DecidableEq

/-- Model of `find_duplicates` (source lines 150-191): the full pipeline
(scan by size, partial-signature pass, full-signature pass, wastage
computation, per-group strategy application and removal).  The Python
function returns `None` and reports its aggregates through log messages;
the model returns those aggregates together with the final filesystem. -/
def find_duplicates (H : Content → List Char) (walk : List FPath) (fs : FS)
    (strategy : Strategy) (dry_run dbg : Bool) : Except String (Report × FS) :=
  match scan walk fs with
  | .error e => .error e
  | .ok size_map =>
    match compute_signatures H fs size_map true with
    | .error e => .error e
    | .ok sig_map0 =>
      match compute_signatures H fs sig_map0 false with
      | .error e => .error e
      | .ok sig_map1 =>
        match compute_wastage fs sig_map1 dbg with
        | .error e => .error e
        | .ok (dfc, dbc) =>
          match deletionLoop strategy dry_run sig_map1 0 0 fs with
          | .error e => .error e
          | .ok (fc, bytes, fs') => .ok (⟨dfc, dbc, fc, bytes⟩, fs')

/-- The grouping pipeline up to the final full-signature map: scan by size,
partial-signature pass, full-signature pass (the first three steps of
`find_duplicates`). -/
def pipelineGroups (H : Content → List Char) (walk : List FPath) (fs : FS) :
    Except String (List (List Char × List FPath)) :=
  match scan walk fs with
  | .error e => .error e
  | .ok size_map =>
    match compute_signatures H fs size_map true with
    | .error e => .error e
    | .ok sig_map0 => compute_signatures H fs sig_map0 false

/-- Size of a group's first member as the spec describes it (0 as a
placeholder for a missing file or an empty group). -/
def headSize (fs : FS) (g : List FPath) : Nat :=
  match g with
  | [] => 0
  | p :: _ => ((fsLookup fs p).getD []).length

/-- Every bucket of the dictionary is nonempty. -/
def groupsNonempty {κ : Type} (d : List (κ × List FPath)) : Prop :=
  ∀ e ∈ d, e.2 ≠ []

/-- Every member of every bucket is present on the filesystem. -/
def groupsReadable {κ : Type} (fs : FS) (d : List (κ × List FPath)) : Prop :=
  ∀ e ∈ d, ∀ p ∈ e.2, (fsLookup fs p).isSome = true

/-- Some bucket has a member whose content differs from the bucket's first
member's content. -/
def groupMismatch {κ : Type} (fs : FS) (d : List (κ × List FPath)) : Prop :=
  ∃ e ∈ d, ∃ p ∈ e.2, fsLookup fs e.2.headI ≠ fsLookup fs p

/-- Boolean check that, in every group, every member's content equals the
first member's content. -/
def groupsMatch (fs : FS) (gs : List (List FPath)) : Bool :=
  gs.all (fun g => g.all (fun p => decide (fsLookup fs g.headI = fsLookup fs p)))

/-- Numeric value of a decimal digit character. -/
def digitVal (c : Char) : Nat :=
  c.toNat - 48

/-- Numeric value of a decimal digit string, most significant digit first. -/
def decVal (l : List Char) : Nat :=
  l.foldl (fun a c => a * 10 + digitVal c) 0

/-- Whether an `Except` computation succeeded. -/
def exceptIsOk {α : Type} (x : Except String α) : Bool :=
  match x with
  | .ok _ => true
  | .error _ => false

/-! ### Decimal representation: injectivity of `Nat.repr` -/

theorem toDigitsCore_append (fuel : Nat) :
    ∀ (n : Nat) (ds : List Char),
      Nat.toDigitsCore 10 fuel n ds = Nat.toDigitsCore 10 fuel n [] ++ ds := by
  induction fuel with
  | zero => intro n ds; simp [Nat.toDigitsCore]
  | succ f ih =>
    intro n ds
    simp only [Nat.toDigitsCore]
    by_cases h : n / 10 = 0
    · simp [h]
    · simp only [h, if_false]
      rw [ih (n / 10) (Nat.digitChar (n % 10) :: ds), ih (n / 10) [Nat.digitChar (n % 10)]]
      simp

theorem digitVal_digitChar (k : Nat) (h : k < 10) :
    digitVal (Nat.digitChar k) = k := by
  interval_cases k <;> rfl

theorem decVal_append_singleton (l : List Char) (c : Char) :
    decVal (l ++ [c]) = decVal l * 10 + digitVal c := by
  simp [decVal, List.foldl_append]

theorem decVal_toDigitsCore (fuel : Nat) :
    ∀ n : Nat, n < fuel → decVal (Nat.toDigitsCore 10 fuel n []) = n := by
  induction fuel with
  | zero => intro n h; exact absurd h (Nat.not_lt_zero n)
  | succ f ih =>
    intro n hn
    simp only [Nat.toDigitsCore]
    by_cases h : n / 10 = 0
    · have hlt : n < 10 := by
        by_contra hge
        have h10 : 10 / 10 ≤ n / 10 := Nat.div_le_div_right (Nat.le_of_not_lt hge)
        simp [h] at h10
      simp [h, decVal, Nat.mod_eq_of_lt hlt, digitVal_digitChar n hlt]
    · have hp : 0 < n := by
        rcases Nat.eq_zero_or_pos n with h0 | h0
        · exact absurd (by simp [h0]) h
        · exact h0
      have hd : n / 10 < n := Nat.div_lt_self hp (by norm_num)
      simp only [h, if_false]
      rw [toDigitsCore_append f (n / 10) [Nat.digitChar (n % 10)],
        decVal_append_singleton, ih (n / 10) (by omega),
        digitVal_digitChar (n % 10) (Nat.mod_lt n (by norm_num))]
      omega

theorem reprData_injective (m n : Nat)
    (h : (Nat.repr m).data = (Nat.repr n).data) : m = n := by
  have hm : (Nat.repr m).data = Nat.toDigitsCore 10 (m + 1) m [] := rfl
  have hn : (Nat.repr n).data = Nat.toDigitsCore 10 (n + 1) n [] := rfl
  have := congrArg decVal h
  rw [hm, hn, decVal_toDigitsCore (m + 1) m (Nat.lt_succ_self m),
    decVal_toDigitsCore (n + 1) n (Nat.lt_succ_self n)] at this
  exact this

theorem sigFormat_size_inj (n1 n2 : Nat) (h1 h2 : List Char)
    (hl : h1.length = h2.length) (he : sigFormat n1 h1 = sigFormat n2 h2) :
    n1 = n2 := by
  unfold sigFormat at he
  have := List.append_inj' he (by simp [hl])
  exact reprData_injective n1 n2 this.1

/-! ### Permutation facts about the comparator-based sort -/

theorem insertCmp_perm (c : FPath → FPath → Except String Int) (x : FPath) :
    ∀ (l l' : List FPath), insertCmp c x l = .ok l' → l'.Perm (x :: l) := by
  intro l
  induction l with
  | nil =>
    intro l' h
    simp only [insertCmp, Except.ok.injEq] at h
    subst h
    exact List.Perm.refl _
  | cons y ys ih =>
    intro l' h
    simp only [insertCmp] at h
    cases hc : c x y with
    | error e => simp [hc] at h
    | ok r =>
      simp only [hc] at h
      by_cases hr : r < 0
      · rw [if_pos hr] at h
        simp only [Except.ok.injEq] at h
        subst h
        exact List.Perm.refl _
      · rw [if_neg hr] at h
        cases hrec : insertCmp c x ys with
        | error e => simp [hrec] at h
        | ok zs =>
          simp only [hrec, Except.ok.injEq] at h
          subst h
          exact (List.Perm.cons y (ih zs hrec)).trans (List.Perm.swap x y ys)

theorem sortCmpAux_perm (c : FPath → FPath → Except String Int) :
    ∀ (xs acc s : List FPath), sortCmpAux c acc xs = .ok s → s.Perm (acc ++ xs) := by
  intro xs
  induction xs with
  | nil =>
    intro acc s h
    simp only [sortCmpAux, Except.ok.injEq] at h
    subst h
    simp
  | cons x xs ih =>
    intro acc s h
    simp only [sortCmpAux] at h
    cases hins : insertCmp c x acc with
    | error e => simp [hins] at h
    | ok acc' =>
      simp only [hins] at h
      have h1 : s.Perm (acc' ++ xs) := ih acc' s h
      have h2 : (acc' ++ xs).Perm ((x :: acc) ++ xs) :=
        (insertCmp_perm c x acc acc' hins).append_right xs
      have h3 : ((x :: acc) ++ xs).Perm (acc ++ x :: xs) := by
        simpa using List.perm_middle.symm
      exact (h1.trans h2).trans h3

theorem sortCmp_perm (c : FPath → FPath → Except String Int)
    (l s : List FPath) (h : sortCmp c l = .ok s) : s.Perm l :=
  sortCmpAux_perm c l [] s h

theorem keepFirst_apply_partition (g keep rem : List FPath)
    (h : KeepFirstInCopyAwareOrderStrategy.apply g = .ok (keep, rem)) :
    keep.length = 1 ∧ (keep ++ rem).Perm g := by
  unfold KeepFirstInCopyAwareOrderStrategy.apply at h
  cases hs : sortCmp copy_aware_path_compare g with
  | error e => simp [hs] at h
  | ok s =>
    simp only [hs] at h
    cases s with
    | nil => simp at h
    | cons x rest =>
      simp only [Except.ok.injEq, Prod.mk.injEq] at h
      obtain ⟨hk, hr⟩ := h
      subst hk
      subst hr
      exact ⟨rfl, sortCmp_perm copy_aware_path_compare g (x :: rest) hs⟩

theorem strategy_apply_remove_subperm (strat : Strategy) (g keep rem : List FPath)
    (h : strat.apply g = .ok (keep, rem)) : rem.Subperm g := by
  cases strat with
  | nop =>
    simp only [Strategy.apply, DoNotRemoveDuplicatesStrategy.apply,
      Except.ok.injEq, Prod.mk.injEq] at h
    rw [← h.2]
    exact List.nil_subperm
  | keepFirst =>
    simp only [Strategy.apply] at h
    unfold KeepFirstInCopyAwareOrderStrategy.apply at h
    cases hs : sortCmp copy_aware_path_compare g with
    | error e => simp [hs] at h
    | ok s =>
      simp only [hs] at h
      cases s with
      | nil => simp at h
      | cons x rest =>
        simp only [Except.ok.injEq, Prod.mk.injEq] at h
        rw [← h.2]
        have h1 : rest.Subperm (x :: rest) := (List.sublist_cons_self x rest).subperm
        exact h1.trans (sortCmp_perm copy_aware_path_compare g (x :: rest) hs).subperm

/-! ### Claims C1, C2, C8, C10 -/

/-- C1: the full-signature pass is claimed to hash `ceil(size / blockSize)`
blocks for every file.  The code instead computes zero blocks when the size
is a nonzero exact multiple of `BLOCK_SIZE`: for a 1024-byte file the digest
is applied to the empty byte string (`H []`) rather than to the file's
1024 bytes, so the file's content is never hashed. -/
theorem compute_signature_exact_multiple_hashes_nothing :
    ∀ H : Content → List Char,
      compute_signature H [("f".data, List.replicate 1024 7)] "f".data false
        = .ok (sigFormat 1024 (H [])) := by
  intro H
  rfl

/-- C2 counterexample: the claimed order compares directory components
first, so for the group `["a/x", "a!b/x"]` (directories `"a" < "a!b"`) the
kept path would be `"a/x"`; the code instead compares the full path strings
when the directories differ (`'/' > '!'`), keeps `"a!b/x"` and removes
`"a/x"`. -/
theorem keepFirst_not_dir_component_order :
    KeepFirstInCopyAwareOrderStrategy.apply ["a/x".data, "a!b/x".data]
      = .ok (["a!b/x".data], ["a/x".data])
    ∧ cmpChars (dirname "a/x".data) (dirname "a!b/x".data) = -1 :=
  ⟨rfl, rfl⟩

/-- C2 amended: the keep-first strategy sorts the group with the
copy-aware comparator and keeps exactly the first path, removing the rest;
the comparator compares the full path strings (not the directory
components) when the directories differ, and within one directory it
orders a name carrying the `"Copy of "` marker after the name it is a copy
of; on the group `{"dir/a.txt", "dir/Copy of a.txt"}` it keeps
`"dir/a.txt"` and removes `"dir/Copy of a.txt"`. -/
theorem keepFirst_copy_aware_order :
    (∀ p0 p1 : FPath, dirname p0 ≠ dirname p1 →
      copy_aware_path_compare p0 p1 = .ok (cmpChars p0 p1))
    ∧ (∀ p0 p1 : FPath, dirname p0 = dirname p1 →
        ( has_prefix copyMarker (basename p0)).1 = false →
        basename p1 = copyMarker ++ basename p0 →
        copy_aware_path_compare p0 p1 = .ok (-1))
    ∧ (∀ (g : List FPath) (x : FPath) (rest : List FPath),
        sortCmp copy_aware_path_compare g = .ok (x :: rest) →
        KeepFirstInCopyAwareOrderStrategy.apply g = .ok ([x], rest))
    ∧ KeepFirstInCopyAwareOrderStrategy.apply
        ["dir/a.txt".data, "dir/Copy of a.txt".data]
      = .ok (["dir/a.txt".data], ["dir/Copy of a.txt".data]) := by
  refine ⟨?_, ?_, ?_, rfl⟩
  · intro p0 p1 hd
    unfold copy_aware_path_compare
    rw [if_pos hd]
  · intro p0 p1 hd h0 h1
    unfold copy_aware_path_compare
    rw [if_neg (by simp [hd])]
    have hpre0 : ( has_prefix copyMarker (basename p0)) = (false, basename p0) := by
      unfold has_prefix at h0 ⊢
      by_cases hp : copyMarker.isPrefixOf (basename p0)
      · rw [if_pos hp] at h0; simp at h0
      · rw [if_neg hp]
    have hpre1 : ( has_prefix copyMarker (basename p1))
        = (true, basename p0) := by
      unfold has_prefix
      rw [h1, if_pos (by simp [List.isPrefixOf_iff_prefix])]
      rw [List.drop_left copyMarker (basename p0)]
    simp [hpre0, hpre1]
  · intro g x rest hs
    unfold KeepFirstInCopyAwareOrderStrategy.apply
    rw [hs]

/-- C2 witness: the amended comparator description applied to two paths in
different directories. -/
theorem keepFirst_copy_aware_order_witness :
    copy_aware_path_compare "b/x".data "a/y".data
      = .ok (cmpChars "b/x".data "a/y".data) :=
  keepFirst_copy_aware_order.1 "b/x".data "a/y".data (by decide)

/-- C8 counterexample: the no-op retention strategy does not partition a
two-member group into exactly one kept path: it keeps both members and
removes none. -/
theorem nop_strategy_keeps_all :
    DoNotRemoveDuplicatesStrategy.apply ["a".data, "b".data]
      = (["a".data, "b".data], [])
    ∧ (DoNotRemoveDuplicatesStrategy.apply ["a".data, "b".data]).1.length ≠ 1 :=
  ⟨rfl, by decide⟩

/-- C8 amended: the keep-first strategy partitions a group into exactly one
kept path plus the remaining members whenever it succeeds; the no-op
strategy instead keeps the whole group and removes nothing. -/
theorem strategy_apply_partition :
    (∀ g : List FPath, DoNotRemoveDuplicatesStrategy.apply g = (g, []))
    ∧ (∀ (g keep rem : List FPath), 2 ≤ g.length →
        KeepFirstInCopyAwareOrderStrategy.apply g = .ok (keep, rem) →
        keep.length = 1 ∧ (keep ++ rem).Perm g) :=
  ⟨fun _ => rfl, fun g keep rem _ h => keepFirst_apply_partition g keep rem h⟩

/-- C8 witness: the partition property at a concrete two-member group. -/
theorem strategy_apply_partition_witness :
    (2 ≤ (["a/x".data, "a/y".data] : List FPath).length)
    ∧ (["a/x".data] : List FPath).length = 1
    ∧ ((["a/x".data] : List FPath) ++ ["a/y".data]).Perm
        ["a/x".data, "a/y".data] := by
  refine ⟨by decide, ?_⟩
  have h := strategy_apply_partition.2 ["a/x".data, "a/y".data]
    ["a/x".data] ["a/y".data] (by decide) rfl
  exact h

/-- C10: for a file strictly smaller than the block size (the empty file
included) the partial signature equals the full signature: the partial
pass reads one block covering the whole file, and the full pass computes
one block (or zero for the empty file, whose single partial block is also
empty). -/
theorem compute_signature_partial_eq_full (H : Content → List Char)
    (fs : FS) (p : FPath) (c : Content) (h : fsLookup fs p = some c)
    (hlen : c.length < BLOCK_SIZE) :
    compute_signature H fs p true = compute_signature H fs p false := by
  unfold compute_signature readFile
  rw [h]
  by_cases h0 : c.length = 0
  · have hc : c = [] := List.eq_nil_of_length_eq_zero h0
    subst hc
    rfl
  · have hmod : c.length % BLOCK_SIZE = c.length := Nat.mod_eq_of_lt hlen
    have hdiv : c.length / BLOCK_SIZE = 0 := Nat.div_eq_of_lt hlen
    simp [hmod, hdiv, Nat.pos_of_ne_zero h0]

/-- C10 witness: a two-byte file has equal partial and full signatures. -/
theorem compute_signature_partial_eq_full_witness :
    fsLookup [("g".data, [1, 2])] "g".data = some [1, 2]
    ∧ ([1, 2] : Content).length < BLOCK_SIZE
    ∧ compute_signature (fun l => (Nat.repr l.length).data)
        [("g".data, [1, 2])] "g".data true
      = compute_signature (fun l => (Nat.repr l.length).data)
        [("g".data, [1, 2])] "g".data false :=
  ⟨rfl, by decide,
    compute_signature_partial_eq_full (fun l => (Nat.repr l.length).data)
      [("g".data, [1, 2])] "g".data [1, 2] rfl (by decide)⟩

/-! ### Claim C3: wastage counts -/

theorem wastageBytes_value (fs : FS) :
    ∀ (gs : List (List FPath)) (acc v : Nat), wastageBytes fs gs acc = .ok v →
      v = acc + (gs.map (fun g => headSize fs g * (g.length - 1))).sum := by
  intro gs
  induction gs with
  | nil =>
    intro acc v h
    simp only [wastageBytes, Except.ok.injEq] at h
    simp [← h]
  | cons g gs ih =>
    intro acc v h
    simp only [wastageBytes] at h
    cases g with
    | nil => simp at h
    | cons p t =>
      cases hs : statSize fs p with
      | error e => simp [hs] at h
      | ok sz =>
        simp only [hs] at h
        have hv := ih _ v h
        have hh : headSize fs (p :: t) = sz := by
          unfold statSize at hs
          simp only [headSize]
          cases hl : fsLookup fs p with
          | none => rw [hl] at hs; simp at hs
          | some c =>
            rw [hl] at hs
            simp only [Except.ok.injEq] at hs
            simpa using hs
        rw [hv]
        simp only [List.map_cons, List.sum_cons, hh]
        omega

/-- C3: whenever `compute_wastage` returns a pair, the first component is
the sum over groups of `len(group) - 1` and the second is the sum over
groups of `size(first member) * (len(group) - 1)`. -/
theorem compute_wastage_counts {κ : Type} (fs : FS) (d : List (κ × List FPath))
    (dbg : Bool) (a b : Nat) (h : compute_wastage fs d dbg = .ok (a, b)) :
    a = (d.map (fun e => e.2.length - 1)).sum
    ∧ b = (d.map (fun e => headSize fs e.2 * (e.2.length - 1))).sum := by
  unfold compute_wastage at h
  cases hwb : wastageBytes fs (d.map Prod.snd) 0 with
  | error e => simp [hwb] at h
  | ok dbc =>
    simp only [hwb] at h
    have hb : dbc = (d.map (fun e => headSize fs e.2 * (e.2.length - 1))).sum := by
      have := wastageBytes_value fs (d.map Prod.snd) 0 dbc hwb
      simpa [List.map_map, Function.comp] using this
    cases dbg with
    | false =>
      simp only [Bool.false_eq_true, if_false, Except.ok.injEq, Prod.mk.injEq] at h
      exact ⟨h.1.symm, by rw [← h.2, hb]⟩
    | true =>
      simp only [if_true] at h
      cases hwv : wastageValid fs (d.map Prod.snd) true with
      | error e => simp [hwv] at h
      | ok v =>
        simp only [hwv] at h
        cases v with
        | false => simp at h
        | true =>
          simp only [if_true, Except.ok.injEq, Prod.mk.injEq] at h
          exact ⟨h.1.symm, by rw [← h.2, hb]⟩

/-- C3 witness: the counts at a concrete two-member group of 2-byte files. -/
theorem compute_wastage_counts_witness :
    compute_wastage [("a".data, [5, 6]), ("b".data, [5, 6])]
      [((0 : Nat), ["a".data, "b".data])] false = .ok (1, 2)
    ∧ (1 : Nat)
        = ([((0 : Nat), ["a".data, "b".data])].map (fun e => e.2.length - 1)).sum
    ∧ (2 : Nat)
        = ([((0 : Nat), ["a".data, "b".data])].map
            (fun e => headSize [("a".data, [5, 6]), ("b".data, [5, 6])] e.2
              * (e.2.length - 1))).sum :=
  ⟨rfl, compute_wastage_counts [("a".data, [5, 6]), ("b".data, [5, 6])]
    [((0 : Nat), ["a".data, "b".data])] false 1 2 rfl⟩

/-! ### Claim C5: verification aborts the run on any mismatch -/

theorem wastageValidGroup_value (fs : FS) (p0 : FPath) (c0 : Content)
    (hc0 : fsLookup fs p0 = some c0) :
    ∀ (g : List FPath) (acc : Bool),
      (∀ p ∈ g, (fsLookup fs p).isSome = true) →
      wastageValidGroup fs p0 g acc
        = .ok (acc && g.all (fun p => decide (fsLookup fs p0 = fsLookup fs p))) := by
  intro g
  induction g with
  | nil => intro acc _; simp [wastageValidGroup]
  | cons p ps ih =>
    intro acc hrd
    obtain ⟨cp, hcp⟩ := Option.isSome_iff_exists.mp (hrd p (by simp))
    have hcmp : compare_files fs p0 p = .ok (decide (c0 = cp)) := by
      unfold compare_files readFile
      rw [hc0, hcp]
    simp only [wastageValidGroup, hcmp]
    rw [ih (acc && decide (c0 = cp)) (fun q hq => hrd q (by simp [hq]))]
    have hdec : decide (fsLookup fs p0 = fsLookup fs p) = decide (c0 = cp) := by
      rw [hc0, hcp]
      simp
    simp [hdec, Bool.and_assoc]

theorem wastageValid_value (fs : FS) :
    ∀ (gs : List (List FPath)) (acc : Bool),
      (∀ g ∈ gs, g ≠ []) →
      (∀ g ∈ gs, ∀ p ∈ g, (fsLookup fs p).isSome = true) →
      wastageValid fs gs acc = .ok (acc && groupsMatch fs gs) := by
  intro gs
  induction gs with
  | nil => intro acc _ _; simp [wastageValid, groupsMatch]
  | cons g gs ih =>
    intro acc hne hrd
    cases g with
    | nil => exact absurd rfl (hne [] (by simp))
    | cons p0 t =>
      obtain ⟨c0, hc0⟩ := Option.isSome_iff_exists.mp
        (hrd (p0 :: t) (by simp) p0 (by simp))
      simp only [wastageValid,
        wastageValidGroup_value fs p0 c0 hc0 (p0 :: t) acc
          (hrd (p0 :: t) (by simp))]
      rw [ih _ (fun q hq => hne q (by simp [hq]))
        (fun q hq => hrd q (by simp [hq]))]
      have : groupsMatch fs ((p0 :: t) :: gs)
          = ((p0 :: t).all (fun p => decide (fsLookup fs p0 = fsLookup fs p))
              && groupsMatch fs gs) := by
        simp [groupsMatch, List.headI]
      rw [this, Bool.and_assoc]

theorem wastageBytes_isOk_of_readable (fs : FS) :
    ∀ (gs : List (List FPath)) (acc : Nat),
      (∀ g ∈ gs, g ≠ []) →
      (∀ g ∈ gs, ∀ p ∈ g, (fsLookup fs p).isSome = true) →
      ∃ v, wastageBytes fs gs acc = .ok v := by
  intro gs
  induction gs with
  | nil => intro acc _ _; exact ⟨acc, rfl⟩
  | cons g gs ih =>
    intro acc hne hrd
    cases g with
    | nil => exact absurd rfl (hne [] (by simp))
    | cons p t =>
      obtain ⟨c, hc⟩ := Option.isSome_iff_exists.mp
        (hrd (p :: t) (by simp) p (by simp))
      have hst : statSize fs p = .ok c.length := by
        unfold statSize
        rw [hc]
      obtain ⟨v, hv⟩ := ih (acc + c.length * ((p :: t).length - 1))
        (fun q hq => hne q (by simp [hq])) (fun q hq => hrd q (by simp [hq]))
      exact ⟨v, by simp only [wastageBytes, hst]; exact hv⟩

theorem groupsMatch_false_iff {κ : Type} (fs : FS) (d : List (κ × List FPath)) :
    groupsMatch fs (d.map Prod.snd) = false ↔ groupMismatch fs d := by
  rw [Bool.eq_false_iff]
  unfold groupsMatch groupMismatch
  simp only [ne_eq, List.all_eq_true, decide_eq_true_eq, List.mem_map]
  constructor
  · intro h
    push_neg at h
    obtain ⟨g, ⟨e, he, hge⟩, p, hp, hne⟩ := h
    exact ⟨e, he, p, by rw [hge]; exact hp, by rw [hge]; exact hne⟩
  · intro ⟨e, he, p, hp, hne⟩ h
    exact hne (h e.2 ⟨e, he, rfl⟩ p hp)

theorem find_duplicates_pipeline_decomp (H : Content → List Char)
    (walk : List FPath) (fs : FS) (strat : Strategy) (dr dbg : Bool) :
    find_duplicates H walk fs strat dr dbg
      = match pipelineGroups H walk fs with
        | .error e => .error e
        | .ok m =>
          match compute_wastage fs m dbg with
          | .error e => .error e
          | .ok (dfc, dbc) =>
            match deletionLoop strat dr m 0 0 fs with
            | .error e => .error e
            | .ok (fc, bytes, fs') => .ok (⟨dfc, dbc, fc, bytes⟩, fs') := by
  unfold find_duplicates pipelineGroups
  cases h0 : scan walk fs with
  | error e => simp [h0]
  | ok m0 =>
    simp only [h0]
    cases h1 : compute_signatures H fs m0 true with
    | error e => simp [h1]
    | ok m1 => simp only [h1]

/-- C5: with verification enabled, `compute_wastage` byte-compares every
member of every group against the group's first member; when every member
is readable it raises `RuntimeError("Diagnostics failed")` exactly when
some member's content differs from its group head's content, and any such
error propagates out of `find_duplicates`, aborting the whole run. -/
theorem compute_wastage_verify_abort {κ : Type} (fs : FS)
    (d : List (κ × List FPath)) (hne : groupsNonempty d)
    (hrd : groupsReadable fs d) :
    (compute_wastage fs d true = .error "Diagnostics failed"
      ↔ groupMismatch fs d)
    ∧ (∀ (H : Content → List Char) (walk : List FPath)
        (m : List (List Char × List FPath)) (e : String) (strat : Strategy)
        (dr : Bool), pipelineGroups H walk fs = .ok m →
        compute_wastage fs m true = .error e →
        find_duplicates H walk fs strat dr true = .error e) := by
  constructor
  · have hne' : ∀ g ∈ d.map Prod.snd, g ≠ [] := by
      intro g hg
      obtain ⟨e, he, hge⟩ := List.mem_map.mp hg
      rw [← hge]
      exact hne e he
    have hrd' : ∀ g ∈ d.map Prod.snd, ∀ p ∈ g, (fsLookup fs p).isSome = true := by
      intro g hg p hp
      obtain ⟨e, he, hge⟩ := List.mem_map.mp hg
      exact hrd e he p (by rw [hge]; exact hp)
    obtain ⟨v, hv⟩ := wastageBytes_isOk_of_readable fs (d.map Prod.snd) 0 hne' hrd'
    have hvalid := wastageValid_value fs (d.map Prod.snd) true hne' hrd'
    unfold compute_wastage
    rw [hv, hvalid]
    simp only [Bool.true_and, if_true]
    cases hm : groupsMatch fs (d.map Prod.snd) with
    | false =>
      simp only [Bool.false_eq_true, if_false]
      simp [(groupsMatch_false_iff fs d).mp hm]
    | true =>
      simp only [if_true]
      constructor
      · intro h
        exact absurd h (by simp)
      · intro h
        have := (groupsMatch_false_iff fs d).mpr h
        rw [hm] at this
        exact absurd this (by simp)
  · intro H walk m e strat dr hpipe hcw
    simp only [find_duplicates_pipeline_decomp, hpipe, hcw]

/-- C5 witness: a two-member group with differing contents mismatches, so
the verified run raises the diagnostic. -/
theorem compute_wastage_verify_abort_witness :
    groupsNonempty [((0 : Nat), ["a".data, "b".data])]
    ∧ groupsReadable [("a".data, [1]), ("b".data, [2])]
        [((0 : Nat), ["a".data, "b".data])]
    ∧ groupMismatch [("a".data, [1]), ("b".data, [2])]
        [((0 : Nat), ["a".data, "b".data])] := by
  have h1 : groupsNonempty [((0 : Nat), ["a".data, "b".data])] := by
    intro e he
    simp only [List.mem_singleton] at he
    subst he
    simp
  have h2 : groupsReadable [("a".data, [1]), ("b".data, [2])]
      [((0 : Nat), ["a".data, "b".data])] := by
    intro e he
    simp only [List.mem_singleton] at he
    subst he
    decide
  exact ⟨h1, h2,
    (compute_wastage_verify_abort [("a".data, [1]), ("b".data, [2])]
      [((0 : Nat), ["a".data, "b".data])] h1 h2).1.mp rfl⟩

/-! ### Claim C6: per-file I/O errors abort the run -/

theorem walkFold_error_of_missing (fs : FS) :
    ∀ (ps : List FPath) (m : List (Nat × List FPath)),
      (∃ p ∈ ps, fsLookup fs p = none) →
      ∃ e, walkFold fs ps m = .error e := by
  intro ps
  induction ps with
  | nil => intro m h; simp at h
  | cons q ps ih =>
    intro m h
    obtain ⟨p, hp, hnone⟩ := h
    rcases List.mem_cons.mp hp with hq | hps
    · subst hq
      have hst : statSize fs p = .error "No such file or directory" := by
        unfold statSize
        rw [hnone]
      exact ⟨"No such file or directory", by simp only [walkFold, hst]⟩
    · cases hst : statSize fs q with
      | error e => exact ⟨e, by simp only [walkFold, hst]⟩
      | ok sz =>
        obtain ⟨e, he⟩ := ih (addToBucket m sz q) ⟨p, hps, hnone⟩
        exact ⟨e, by simp only [walkFold, hst]; exact he⟩

theorem sigFold_error_of_missing (H : Content → List Char) (fs : FS)
    (ip : Bool) :
    ∀ (ps : List FPath) (m : List (List Char × List FPath)),
      (∃ p ∈ ps, fsLookup fs p = none) →
      ∃ e, sigFold H fs ip ps m = .error e := by
  intro ps
  induction ps with
  | nil => intro m h; simp at h
  | cons q ps ih =>
    intro m h
    obtain ⟨p, hp, hnone⟩ := h
    rcases List.mem_cons.mp hp with hq | hps
    · subst hq
      have hsig : compute_signature H fs p ip = .error "No such file or directory" := by
        unfold compute_signature readFile
        rw [hnone]
      exact ⟨"No such file or directory", by simp only [sigFold, hsig]⟩
    · cases hsig : compute_signature H fs q ip with
      | error e => exact ⟨e, by simp only [sigFold, hsig]⟩
      | ok sig =>
        obtain ⟨e, he⟩ := ih (addToBucket m sig q) ⟨p, hps, hnone⟩
        exact ⟨e, by simp only [sigFold, hsig]; exact he⟩

/-- C6 counterexample: a failing metadata read on `"a"` aborts the whole
scan with an exception; the other file `"b"` is not processed and no
pruned size map is produced, contradicting the claim that the run
continues with the affected file excluded. -/
theorem scan_aborts_on_metadata_error :
    scan ["a".data, "b".data] [("b".data, [1, 2])]
      = .error "No such file or directory" := rfl

/-- C6 amended: a per-file I/O error is not recovered: any missing file
among the scanned paths makes `scan` raise, and any missing file among the
grouped paths makes a signature pass raise, aborting the run instead of
excluding the file. -/
theorem per_file_io_error_aborts_run (fs : FS) :
    (∀ walk : List FPath, (∃ p ∈ walk, fsLookup fs p = none) →
      ∃ e, scan walk fs = .error e)
    ∧ (∀ (κ : Type) (H : Content → List Char) (d : List (κ × List FPath))
        (ip : Bool), (∃ p ∈ flatPaths d, fsLookup fs p = none) →
        ∃ e, compute_signatures H fs d ip = .error e) := by
  constructor
  · intro walk h
    obtain ⟨e, he⟩ := walkFold_error_of_missing fs walk [] h
    exact ⟨e, by unfold scan; simp only [he]⟩
  · intro κ H d ip h
    obtain ⟨e, he⟩ := sigFold_error_of_missing H fs ip (flatPaths d) [] h
    exact ⟨e, by unfold compute_signatures; simp only [he]⟩

/-- C6 witness: the scan-stage abort derived from the amended statement at
a concrete filesystem missing one of two walked files. -/
theorem per_file_io_error_aborts_run_witness :
    exceptIsOk (scan ["x".data, "y".data] [("y".data, [3])]) = false := by
  obtain ⟨e, he⟩ := (per_file_io_error_aborts_run [("y".data, [3])]).1
    ["x".data, "y".data] ⟨"x".data, by decide, rfl⟩
  rw [he]
  rfl

/-! ### Claim C7: the report returned by `find_duplicates` -/

/-- C7 counterexample: a run in which a removal target's second deletion
fails does not return any report: the exception aborts `find_duplicates`,
and in particular no `removalFailures` collection is produced (the code
has none). -/
theorem find_duplicates_removal_failure_aborts :
    find_duplicates (fun l => (Nat.repr l.length).data)
      ["d/Copy of a".data, "d/Copy of a".data, "d/Copy of a".data]
      [("d/Copy of a".data, [1])] Strategy.keepFirst false false
      = .error "No such file or directory" := rfl

/-- C7 amended: a successful run of `find_duplicates` computes (and logs)
exactly four aggregates: the duplicate file count and duplicate byte count
from `compute_wastage` on the final signature map, and the removed-file
count and freed bytes from the per-group removal loop; there is no
`removalFailures` component and no report value is returned by the Python
function (the model returns the logged aggregates). -/
theorem find_duplicates_aggregates (H : Content → List Char)
    (walk : List FPath) (fs : FS) (strat : Strategy) (dr dbg : Bool)
    (r : Report) (fs' : FS)
    (h : find_duplicates H walk fs strat dr dbg = .ok (r, fs')) :
    ∃ m, pipelineGroups H walk fs = .ok m
      ∧ compute_wastage fs m dbg
          = .ok (r.duplicateFileCount, r.duplicateByteCount)
      ∧ deletionLoop strat dr m 0 0 fs
          = .ok (r.filesRemoved, r.bytesFreed, fs') := by
  rw [find_duplicates_pipeline_decomp] at h
  cases hp : pipelineGroups H walk fs with
  | error e => simp [hp] at h
  | ok m =>
    simp only [hp] at h
    cases hw : compute_wastage fs m dbg with
    | error e => simp [hw] at h
    | ok pr =>
      obtain ⟨dfc, dbc⟩ := pr
      simp only [hw] at h
      cases hd : deletionLoop strat dr m 0 0 fs with
      | error e => simp [hd] at h
      | ok tr =>
        obtain ⟨fc, bytes, fs2⟩ := tr
        simp only [hd, Except.ok.injEq, Prod.mk.injEq] at h
        obtain ⟨h1, h2⟩ := h
        subst h2
        subst h1
        exact ⟨m, rfl, hw, hd⟩

/-- C7 witness: on a concrete run the aggregates decompose as the amended
claim states; the duplicate counts are those of `compute_wastage` on the
pipeline's final map. -/
theorem find_duplicates_aggregates_witness :
    compute_wastage [("d/a".data, [1, 2]), ("d/b".data, [1, 2]), ("d/c".data, [9, 9])]
      [("2:12".data, ["d/a".data, "d/b".data])] false = .ok (1, 2) := by
  obtain ⟨m, hp, hw, hd⟩ := find_duplicates_aggregates
    (fun l => l.map (fun b => Char.ofNat (48 + b % 10)))
    ["d/a".data, "d/b".data, "d/c".data]
    [("d/a".data, [1, 2]), ("d/b".data, [1, 2]), ("d/c".data, [9, 9])]
    Strategy.keepFirst false false ⟨1, 2, 1, 2⟩
    [("d/a".data, [1, 2]), ("d/c".data, [9, 9])] (by rfl)
  have hm : m = [("2:12".data, ["d/a".data, "d/b".data])] := by
    have h2 : pipelineGroups
        (fun l => l.map (fun b => Char.ofNat (48 + b % 10)))
        ["d/a".data, "d/b".data, "d/c".data]
        [("d/a".data, [1, 2]), ("d/b".data, [1, 2]), ("d/c".data, [9, 9])]
        = .ok [("2:12".data, ["d/a".data, "d/b".data])] := by rfl
    rw [hp] at h2
    exact Except.ok.inj h2
  rw [hm] at hw
  exact hw

/-! ### Claim C9: group invariants at every pipeline stage -/

theorem addToBucket_forall {κ : Type} [DecidableEq κ] (P : κ → FPath → Prop) :
    ∀ (m : List (κ × List FPath)) (k : κ) (p : FPath),
      (∀ e ∈ m, ∀ q ∈ e.2, P e.1 q) → P k p →
      ∀ e ∈ addToBucket m k p, ∀ q ∈ e.2, P e.1 q := by
  intro m
  induction m with
  | nil =>
    intro k p _ hkp e he q hq
    simp only [addToBucket, List.mem_singleton] at he
    subst he
    simp only [List.mem_singleton] at hq
    subst hq
    exact hkp
  | cons hd tl ih =>
    obtain ⟨k', ps⟩ := hd
    intro k p hm hkp e he q hq
    simp only [addToBucket] at he
    by_cases hkk : k = k'
    · rw [if_pos hkk] at he
      rcases List.mem_cons.mp he with hee | het
      · subst hee
        rcases List.mem_append.mp hq with hq1 | hq2
        · exact hm (k', ps) (by simp) q hq1
        · simp only [List.mem_singleton] at hq2
          subst hq2
          rw [← hkk]
          exact hkp
      · exact hm e (by simp [het]) q hq
    · rw [if_neg hkk] at he
      rcases List.mem_cons.mp he with hee | het
      · subst hee
        exact hm (k', ps) (by simp) q hq
      · exact ih k p (fun e' he' q' hq' => hm e' (by simp [he']) q' hq') hkp e het q hq

theorem walkFold_statOk (fs : FS) :
    ∀ (ps : List FPath) (m m' : List (Nat × List FPath)),
      walkFold fs ps m = .ok m' →
      (∀ e ∈ m, ∀ q ∈ e.2, statSize fs q = .ok e.1) →
      ∀ e ∈ m', ∀ q ∈ e.2, statSize fs q = .ok e.1 := by
  intro ps
  induction ps with
  | nil =>
    intro m m' h hm
    simp only [walkFold, Except.ok.injEq] at h
    subst h
    exact hm
  | cons p ps ih =>
    intro m m' h hm
    simp only [walkFold] at h
    cases hst : statSize fs p with
    | error e => simp [hst] at h
    | ok sz =>
      simp only [hst] at h
      exact ih (addToBucket m sz p) m' h
        (addToBucket_forall (fun k q => statSize fs q = .ok k) m sz p hm hst)

theorem sigFold_sigOk (H : Content → List Char) (fs : FS) (ip : Bool) :
    ∀ (ps : List FPath) (m m' : List (List Char × List FPath)),
      sigFold H fs ip ps m = .ok m' →
      (∀ e ∈ m, ∀ q ∈ e.2, compute_signature H fs q ip = .ok e.1) →
      ∀ e ∈ m', ∀ q ∈ e.2, compute_signature H fs q ip = .ok e.1 := by
  intro ps
  induction ps with
  | nil =>
    intro m m' h hm
    simp only [sigFold, Except.ok.injEq] at h
    subst h
    exact hm
  | cons p ps ih =>
    intro m m' h hm
    simp only [sigFold] at h
    cases hsig : compute_signature H fs p ip with
    | error e => simp [hsig] at h
    | ok sig =>
      simp only [hsig] at h
      exact ih (addToBucket m sig p) m' h
        (addToBucket_forall (fun k q => compute_signature H fs q ip = .ok k)
          m sig p hm hsig)

theorem mem_prune {κ : Type} (d : List (κ × List FPath)) (e : κ × List FPath)
    (h : e ∈ prune d) : e ∈ d ∧ 2 ≤ e.2.length := by
  unfold prune at h
  have := List.mem_filter.mp h
  exact ⟨this.1, by have h2 := of_decide_eq_true this.2; omega⟩

theorem compute_signature_ok_shape (H : Content → List Char) (fs : FS)
    (p : FPath) (ip : Bool) (s : List Char)
    (h : compute_signature H fs p ip = .ok s) :
    ∃ c bc, fsLookup fs p = some c ∧ s = sigFormat c.length (H (readBlocks c bc)) := by
  unfold compute_signature readFile at h
  cases hl : fsLookup fs p with
  | none => simp [hl] at h
  | some c =>
    simp only [hl, Except.ok.injEq] at h
    exact ⟨c, _, rfl, h.symm⟩

/-- C9: after pruning, every group of the size scan and of each signature
pass has at least two members; within a size-scan group every member's
size is the group key, and within a signature-pass group any two members
have equal sizes (sizes are embedded in the signature string, whose digest
part has the fixed sha1 hexdigest length 40), so files of distinct sizes
never share a group at any stage. -/
theorem pipeline_group_invariants (H : Content → List Char)
    (hH : ∀ dta : Content, (H dta).length = 40) :
    (∀ (walk : List FPath) (fs : FS) (m : List (Nat × List FPath)),
      scan walk fs = .ok m → ∀ e ∈ m, 2 ≤ e.2.length
        ∧ ∀ p ∈ e.2, ∀ c, fsLookup fs p = some c → c.length = e.1)
    ∧ (∀ (κ : Type) (fs : FS) (d : List (κ × List FPath)) (ip : Bool)
        (m' : List (List Char × List FPath)),
        compute_signatures H fs d ip = .ok m' → ∀ e ∈ m', 2 ≤ e.2.length
          ∧ ∀ p ∈ e.2, ∀ q ∈ e.2, ∀ cp cq, fsLookup fs p = some cp →
              fsLookup fs q = some cq → cp.length = cq.length) := by
  constructor
  · intro walk fs m hscan e he
    unfold scan at hscan
    cases hwf : walkFold fs walk [] with
    | error er => simp [hwf] at hscan
    | ok m0 =>
      simp only [hwf, Except.ok.injEq] at hscan
      subst hscan
      obtain ⟨hmem, hlen⟩ := mem_prune m0 e he
      refine ⟨hlen, ?_⟩
      intro p hp c hc
      have hst := walkFold_statOk fs walk [] m0 hwf (by simp) e hmem p hp
      unfold statSize at hst
      rw [hc] at hst
      exact Except.ok.inj hst
  · intro κ fs d ip m' hcs e he
    unfold compute_signatures at hcs
    cases hsf : sigFold H fs ip (flatPaths d) [] with
    | error er => simp [hsf] at hcs
    | ok m1 =>
      simp only [hsf, Except.ok.injEq] at hcs
      subst hcs
      obtain ⟨hmem, hlen⟩ := mem_prune m1 e he
      refine ⟨hlen, ?_⟩
      intro p hp q hq cp cq hcp hcq
      have hsp := sigFold_sigOk H fs ip (flatPaths d) [] m1 hsf (by simp) e hmem p hp
      have hsq := sigFold_sigOk H fs ip (flatPaths d) [] m1 hsf (by simp) e hmem q hq
      obtain ⟨c1, bc1, hl1, hs1⟩ := compute_signature_ok_shape H fs p ip e.1 hsp
      obtain ⟨c2, bc2, hl2, hs2⟩ := compute_signature_ok_shape H fs q ip e.1 hsq
      rw [hl1] at hcp
      rw [hl2] at hcq
      obtain rfl : c1 = cp := Option.some.inj hcp
      obtain rfl : c2 = cq := Option.some.inj hcq
      exact sigFormat_size_inj c1.length c2.length _ _
        (by simp [hH]) (hs1.symm.trans hs2)

/-- C9 witness: two equal-sized files form a size-scan group with two
members. -/
theorem pipeline_group_invariants_witness :
    2 ≤ ((["wa".data, "wb".data] : List FPath)).length := by
  have h := (pipeline_group_invariants (fun _ => List.replicate 40 'a')
      (fun dta => by simp)).1 ["wa".data, "wb".data]
      [("wa".data, [7]), ("wb".data, [7])] [(1, ["wa".data, "wb".data])]
      (by rfl) (1, ["wa".data, "wb".data]) (by decide)
  exact h.1

/-! ### Claim C4: dry run mutates nothing and reports the same statistics -/

theorem fsLookup_fsErase_ne (fs : FS) (p q : FPath) (h : p ≠ q) :
    fsLookup (fsErase fs q) p = fsLookup fs p := by
  induction fs with
  | nil => rfl
  | cons e rest ih =>
    by_cases heq : e.1 = q
    · have h1 : fsErase (e :: rest) q = fsErase rest q := by
        simp [fsErase, List.filter, heq]
      have h2 : fsLookup (e :: rest) p = fsLookup rest p := by
        simp only [fsLookup]
        rw [if_neg (by rw [heq]; exact fun hc => h hc.symm)]
      rw [h1, h2, ih]
    · have h1 : fsErase (e :: rest) q = e :: fsErase rest q := by
        simp [fsErase, List.filter, heq]
      rw [h1]
      simp only [fsLookup]
      by_cases hep : e.1 = p
      · rw [if_pos hep, if_pos hep]
      · rw [if_neg hep, if_neg hep, ih]

theorem subperm_nodup {l1 l2 : List FPath} (h : l1.Subperm l2)
    (hn : l2.Nodup) : l1.Nodup := by
  obtain ⟨l, hperm, hsub⟩ := h
  exact hperm.nodup (hsub.nodup hn)

theorem removeFiles_correspond (ps : List FPath) :
    ∀ (b : Nat) (fs fsE : FS) (b' : Nat) (fs1 : FS),
      ps.Nodup → (∀ p ∈ ps, fsLookup fsE p = fsLookup fs p) →
      removeFiles true ps b fs = .ok (b', fs1) →
      fs1 = fs ∧ ∃ fs2, removeFiles false ps b fsE = .ok (b', fs2)
        ∧ ∀ q, q ∉ ps → fsLookup fs2 q = fsLookup fsE q := by
  induction ps with
  | nil =>
    intro b fs fsE b' fs1 _ _ h
    simp only [removeFiles, Except.ok.injEq, Prod.mk.injEq] at h
    exact ⟨h.2.symm, fsE, by simp [removeFiles, h.1], fun q _ => rfl⟩
  | cons p ps ih =>
    intro b fs fsE b' fs1 hnd hlk h
    simp only [removeFiles] at h
    cases hst : statSize fs p with
    | error e => simp [hst] at h
    | ok sz =>
      simp only [hst, if_true] at h
      have hstE : statSize fsE p = .ok sz := by
        unfold statSize at hst ⊢
        rw [hlk p (by simp)]
        exact hst
      have hndt : ps.Nodup := hnd.of_cons
      have hnp : p ∉ ps := by
        have := List.nodup_cons.mp hnd
        exact this.1
      have hlk' : ∀ r ∈ ps, fsLookup (fsErase fsE p) r = fsLookup fs r := by
        intro r hr
        rw [fsLookup_fsErase_ne fsE r p (fun hc => hnp (hc ▸ hr))]
        exact hlk r (by simp [hr])
      obtain ⟨hfs1, fs2, hrun, hpre⟩ := ih (b + sz) fs (fsErase fsE p) b' fs1 hndt hlk' h
      refine ⟨hfs1, fs2, ?_, ?_⟩
      · simp only [removeFiles, hstE]
        exact hrun
      · intro q hq
        rw [hpre q (fun hc => hq (by simp [hc]))]
        exact fsLookup_fsErase_ne fsE q p (fun hc => hq (by simp [hc]))

theorem deletionLoop_correspond (strat : Strategy) {κ : Type} :
    ∀ (gs : List (κ × List FPath)) (fc b : Nat) (fs fsE : FS)
      (fc' b' : Nat) (fs1 : FS),
      (flatPaths gs).Nodup →
      (∀ p ∈ flatPaths gs, fsLookup fsE p = fsLookup fs p) →
      deletionLoop strat true gs fc b fs = .ok (fc', b', fs1) →
      fs1 = fs ∧ ∃ fs2, deletionLoop strat false gs fc b fsE = .ok (fc', b', fs2) := by
  intro gs
  induction gs with
  | nil =>
    intro fc b fs fsE fc' b' fs1 _ _ h
    simp only [deletionLoop, Except.ok.injEq, Prod.mk.injEq] at h
    exact ⟨h.2.2.symm, fsE, by simp [deletionLoop, h.1, h.2.1]⟩
  | cons g gs ih =>
    obtain ⟨k, paths⟩ := g
    intro fc b fs fsE fc' b' fs1 hnd hlk h
    have hflat : flatPaths ((k, paths) :: gs) = paths ++ flatPaths gs := by
      simp [flatPaths]
    rw [hflat] at hnd hlk
    simp only [deletionLoop] at h
    cases happ : strat.apply paths with
    | error e => simp [happ] at h
    | ok kr =>
      obtain ⟨keep, rem⟩ := kr
      simp only [happ] at h
      cases hrm : removeFiles true rem b fs with
      | error e => simp [hrm] at h
      | ok br =>
        obtain ⟨b2, fsX⟩ := br
        simp only [hrm] at h
        have hsub : rem.Subperm paths := strategy_apply_remove_subperm strat paths keep rem happ
        have hndp : paths.Nodup := (List.nodup_append.mp hnd).1
        have hndr : rem.Nodup := subperm_nodup hsub hndp
        have hlkr : ∀ p ∈ rem, fsLookup fsE p = fsLookup fs p :=
          fun p hp => hlk p (List.mem_append.mpr (Or.inl (hsub.subset hp)))
        obtain ⟨hfsX, fs2, hrunE, hpres⟩ :=
          removeFiles_correspond rem b fs fsE b2 fsX hndr hlkr hrm
        rw [hfsX] at h
        have hdisj : List.Disjoint paths (flatPaths gs) :=
          List.disjoint_of_nodup_append hnd
        have hlk2 : ∀ p ∈ flatPaths gs, fsLookup fs2 p = fsLookup fs p := by
          intro p hp
          have hpnotrem : p ∉ rem := fun hc => hdisj (hsub.subset hc) hp
          rw [hpres p hpnotrem]
          exact hlk p (List.mem_append.mpr (Or.inr hp))
        obtain ⟨hfs1, fs3, hrun3⟩ := ih (fc + rem.length) b2 fs fs2 fc' b' fs1
          (List.nodup_append.mp hnd).2.1 hlk2 h
        refine ⟨hfs1, fs3, ?_⟩
        simp only [deletionLoop, happ, hrunE]
        exact hrun3

theorem flatPaths_addToBucket_perm {κ : Type} [DecidableEq κ] :
    ∀ (m : List (κ × List FPath)) (k : κ) (p : FPath),
      (flatPaths (addToBucket m k p)).Perm (flatPaths m ++ [p]) := by
  intro m
  induction m with
  | nil => intro k p; simp [flatPaths, addToBucket]
  | cons hd rest ih =>
    obtain ⟨k', ps⟩ := hd
    intro k p
    simp only [addToBucket]
    by_cases hkk : k = k'
    · rw [if_pos hkk]
      simp only [flatPaths, List.map_cons, List.flatten_cons, List.append_assoc]
      exact List.Perm.append_left ps List.perm_append_comm
    · rw [if_neg hkk]
      simp only [flatPaths, List.map_cons, List.flatten_cons, List.append_assoc]
      exact List.Perm.append_left ps (ih k p)

theorem walkFold_flat_perm (fs : FS) :
    ∀ (ps : List FPath) (m m' : List (Nat × List FPath)),
      walkFold fs ps m = .ok m' → (flatPaths m').Perm (flatPaths m ++ ps) := by
  intro ps
  induction ps with
  | nil =>
    intro m m' h
    simp only [walkFold, Except.ok.injEq] at h
    subst h
    simp
  | cons p ps ih =>
    intro m m' h
    simp only [walkFold] at h
    cases hst : statSize fs p with
    | error e => simp [hst] at h
    | ok sz =>
      simp only [hst] at h
      have h1 := ih (addToBucket m sz p) m' h
      have h2 := (flatPaths_addToBucket_perm m sz p).append_right ps
      have h3 : (flatPaths m ++ [p]) ++ ps = flatPaths m ++ p :: ps := by simp
      rw [h3] at h2
      exact h1.trans h2

theorem sigFold_flat_perm (H : Content → List Char) (fs : FS) (ip : Bool) :
    ∀ (ps : List FPath) (m m' : List (List Char × List FPath)),
      sigFold H fs ip ps m = .ok m' → (flatPaths m').Perm (flatPaths m ++ ps) := by
  intro ps
  induction ps with
  | nil =>
    intro m m' h
    simp only [sigFold, Except.ok.injEq] at h
    subst h
    simp
  | cons p ps ih =>
    intro m m' h
    simp only [sigFold] at h
    cases hsig : compute_signature H fs p ip with
    | error e => simp [hsig] at h
    | ok sig =>
      simp only [hsig] at h
      have h1 := ih (addToBucket m sig p) m' h
      have h2 := (flatPaths_addToBucket_perm m sig p).append_right ps
      have h3 : (flatPaths m ++ [p]) ++ ps = flatPaths m ++ p :: ps := by simp
      rw [h3] at h2
      exact h1.trans h2

theorem flatten_sublist_of_sublist :
    ∀ {l1 l2 : List (List FPath)}, l1.Sublist l2 → l1.flatten.Sublist l2.flatten := by
  intro l1 l2 h
  induction h with
  | slnil => simp
  | cons a h ih =>
    simp only [List.flatten_cons]
    exact ih.trans (List.sublist_append_right a _)
  | cons₂ a h ih =>
    simp only [List.flatten_cons]
    exact List.Sublist.append_left ih a

theorem flatPaths_prune_sublist {κ : Type} (d : List (κ × List FPath)) :
    (flatPaths (prune d)).Sublist (flatPaths d) :=
  flatten_sublist_of_sublist ((List.filter_sublist d).map Prod.snd)

theorem scan_flat_subperm (walk : List FPath) (fs : FS)
    (m : List (Nat × List FPath)) (h : scan walk fs = .ok m) :
    (flatPaths m).Subperm walk := by
  unfold scan at h
  cases hwf : walkFold fs walk [] with
  | error e => simp [hwf] at h
  | ok m0 =>
    simp only [hwf, Except.ok.injEq] at h
    subst h
    have h1 : (flatPaths m0).Perm walk := by
      have := walkFold_flat_perm fs walk [] m0 hwf
      simpa [flatPaths] using this
    exact (flatPaths_prune_sublist m0).subperm.trans h1.subperm

theorem compute_signatures_flat_subperm {κ : Type} (H : Content → List Char)
    (fs : FS) (d : List (κ × List FPath)) (ip : Bool)
    (m' : List (List Char × List FPath))
    (h : compute_signatures H fs d ip = .ok m') :
    (flatPaths m').Subperm (flatPaths d) := by
  unfold compute_signatures at h
  cases hsf : sigFold H fs ip (flatPaths d) [] with
  | error e => simp [hsf] at h
  | ok m1 =>
    simp only [hsf, Except.ok.injEq] at h
    subst h
    have h1 : (flatPaths m1).Perm (flatPaths d) := by
      have := sigFold_flat_perm H fs ip (flatPaths d) [] m1 hsf
      simpa [flatPaths] using this
    exact (flatPaths_prune_sublist m1).subperm.trans h1.subperm

/-- C4: under a duplicate-free walk, a dry run of `find_duplicates` leaves
the filesystem untouched and returns exactly the statistics (duplicate
file count, duplicate byte count, files removed, bytes freed) that the
destructive run returns. -/
theorem find_duplicates_dry_run_pure (H : Content → List Char)
    (walk : List FPath) (fs : FS) (strat : Strategy) (dbg : Bool)
    (r : Report) (fs1 : FS) (hnd : walk.Nodup)
    (hok : find_duplicates H walk fs strat true dbg = .ok (r, fs1)) :
    fs1 = fs ∧ ∃ fs2, find_duplicates H walk fs strat false dbg = .ok (r, fs2) := by
  rw [find_duplicates_pipeline_decomp] at hok
  cases hp : pipelineGroups H walk fs with
  | error e => simp [hp] at hok
  | ok m =>
    simp only [hp] at hok
    cases hw : compute_wastage fs m dbg with
    | error e => simp [hw] at hok
    | ok pr =>
      obtain ⟨dfc, dbc⟩ := pr
      simp only [hw] at hok
      cases hd : deletionLoop strat true m 0 0 fs with
      | error e => simp [hd] at hok
      | ok tr =>
        obtain ⟨fc, bytes, fsX⟩ := tr
        simp only [hd, Except.ok.injEq, Prod.mk.injEq] at hok
        obtain ⟨h1, h2⟩ := hok
        have hndm : (flatPaths m).Nodup := by
          unfold pipelineGroups at hp
          cases hs : scan walk fs with
          | error e => simp [hs] at hp
          | ok m0 =>
            simp only [hs] at hp
            cases hs0 : compute_signatures H fs m0 true with
            | error e => simp [hs0] at hp
            | ok m1 =>
              simp only [hs0] at hp
              have c1 := scan_flat_subperm walk fs m0 hs
              have c2 := compute_signatures_flat_subperm H fs m0 true m1 hs0
              have c3 := compute_signatures_flat_subperm H fs m1 false m hp
              exact subperm_nodup c3 (subperm_nodup c2 (subperm_nodup c1 hnd))
        obtain ⟨hfsX, fs2, hd2⟩ := deletionLoop_correspond strat m 0 0 fs fs
          fc bytes fsX hndm (fun p _ => rfl) hd
        subst h1
        refine ⟨by rw [← h2, hfsX], fs2, ?_⟩
        rw [find_duplicates_pipeline_decomp]
        simp only [hp, hw, hd2]

/-- C4 witness: a concrete dry run returns the destructive run's report
and leaves the filesystem unchanged. -/
theorem find_duplicates_dry_run_pure_witness :
    (["e/a".data, "e/b".data] : List FPath).Nodup
    ∧ exceptIsOk (find_duplicates (fun l => l.map (fun b => Char.ofNat (48 + b % 10)))
        ["e/a".data, "e/b".data]
        [("e/a".data, [3]), ("e/b".data, [3])] Strategy.keepFirst false false) = true := by
  refine ⟨by decide, ?_⟩
  obtain ⟨hfs, fs2, hok⟩ := find_duplicates_dry_run_pure
    (fun l => l.map (fun b => Char.ofNat (48 + b % 10)))
    ["e/a".data, "e/b".data]
    [("e/a".data, [3]), ("e/b".data, [3])] Strategy.keepFirst false
    ⟨1, 1, 1, 1⟩ [("e/a".data, [3]), ("e/b".data, [3])] (by decide) (by rfl)
  rw [hok]
  rfl
